import Mathlib

/-!
Verification development for the seasonality fair-share allocator (pcal.py).

The core of the program (lines 334-430 of pcal.py) builds the daily date range
from the first day of the current month to the last day of the selected end
month, keeps the days on or after the current date, groups them by calendar
month, and for each month distributes a total weight of 1 across the days:
open days get the base unit 1/(N+C), closed days get 0, each closed day's
unit rolls onto the nearest preceding open day of the same month, and a final
rounding correction pushes the monthly sum back to 1 on the first open day.

The embedding below mirrors those steps over exact rational arithmetic
(ℚ standing in for float64; the float tolerance check of numpy.isclose is
modelled with its documented formula |a-b| ≤ atol + rtol*|b|).
-/

set_option maxHeartbeats 1000000

namespace Pcal

/-- Calendar date, mirroring Python `datetime.date` (year, month, day). -/
structure Date where
  year : Nat
  month : Nat
  day : Nat
deriving DecidableEq, Repr, Inhabited

/-- Gregorian leap-year test, as in Python `calendar.isleap`. -/
def isLeap (y : Nat) : Bool :=
  y % 4 == 0 && (y % 100 != 0 || y % 400 == 0)

/-- Number of days of month `m` of year `y`, as in `calendar.monthrange(y, m)[1]`. -/
def monthrange (y m : Nat) : Nat :=
  if m == 2 then (if isLeap y then 29 else 28)
  else if m == 4 || m == 6 || m == 9 || m == 11 then 30
  else 31

/-- A structurally valid calendar date (what `datetime.date` enforces). -/
def Date.Valid (d : Date) : Prop :=
  1 ≤ d.month ∧ d.month ≤ 12 ∧ 1 ≤ d.day ∧ d.day ≤ monthrange d.year d.month

instance (d : Date) : Decidable d.Valid := by
  unfold Date.Valid; infer_instance

/-- Lexicographic date comparison, the order of Python `datetime.date`. -/
def dateLe (a b : Date) : Bool :=
  decide (a.year < b.year ∨ (a.year = b.year ∧
    (a.month < b.month ∨ (a.month = b.month ∧ a.day ≤ b.day))))

/-- Strict lexicographic date comparison. -/
def dateLt (a b : Date) : Bool :=
  decide (a.year < b.year ∨ (a.year = b.year ∧
    (a.month < b.month ∨ (a.month = b.month ∧ a.day < b.day))))

/-- Linearisation of a date used as a termination/ordering measure
(strictly monotone along the calendar for valid dates). -/
def serial (d : Date) : Nat :=
  384 * d.year + 32 * d.month + d.day

theorem monthrange_le (y m : Nat) : monthrange y m ≤ 31 := by
  unfold monthrange
  split_ifs <;> omega

theorem monthrange_pos (y m : Nat) : 1 ≤ monthrange y m := by
  unfold monthrange
  split_ifs <;> omega

theorem dateLe_iff {a b : Date} : dateLe a b = true ↔
    (a.year < b.year ∨ (a.year = b.year ∧
      (a.month < b.month ∨ (a.month = b.month ∧ a.day ≤ b.day)))) := by
  simp [dateLe]

theorem dateLt_iff {a b : Date} : dateLt a b = true ↔
    (a.year < b.year ∨ (a.year = b.year ∧
      (a.month < b.month ∨ (a.month = b.month ∧ a.day < b.day)))) := by
  simp [dateLt]

theorem valid_bounds {d : Date} (h : d.Valid) :
    1 ≤ d.month ∧ d.month ≤ 12 ∧ 1 ≤ d.day ∧ d.day ≤ 31 := by
  obtain ⟨h1, h2, h3, h4⟩ := h
  exact ⟨h1, h2, h3, h4.trans (monthrange_le _ _)⟩

theorem le_iff_serial {a b : Date} (ha : a.Valid) (hb : b.Valid) :
    dateLe a b = true ↔ serial a ≤ serial b := by
  obtain ⟨ha1, ha2, ha3, ha4⟩ := valid_bounds ha
  obtain ⟨hb1, hb2, hb3, hb4⟩ := valid_bounds hb
  rw [dateLe_iff]
  unfold serial
  omega

theorem lt_iff_serial {a b : Date} (ha : a.Valid) (hb : b.Valid) :
    dateLt a b = true ↔ serial a < serial b := by
  obtain ⟨ha1, ha2, ha3, ha4⟩ := valid_bounds ha
  obtain ⟨hb1, hb2, hb3, hb4⟩ := valid_bounds hb
  rw [dateLt_iff]
  unfold serial
  omega

theorem serial_inj {a b : Date} (ha : a.Valid) (hb : b.Valid)
    (h : serial a = serial b) : a = b := by
  obtain ⟨ha1, ha2, ha3, ha4⟩ := valid_bounds ha
  obtain ⟨hb1, hb2, hb3, hb4⟩ := valid_bounds hb
  unfold serial at h
  cases a; cases b
  simp_all
  omega

theorem dateLe_false_iff {a b : Date} (ha : a.Valid) (hb : b.Valid) :
    dateLe a b = false ↔ serial b < serial a := by
  rw [← Bool.not_eq_true, ← Nat.not_le]
  exact not_congr (le_iff_serial ha hb)

/-- Successor date: the immediate next calendar day. -/
def nextDate (d : Date) : Date :=
  if d.day < monthrange d.year d.month then ⟨d.year, d.month, d.day + 1⟩
  else if d.month < 12 then ⟨d.year, d.month + 1, 1⟩
  else ⟨d.year + 1, 1, 1⟩

theorem nextDate_valid {d : Date} (h : d.Valid) : (nextDate d).Valid := by
  obtain ⟨h1, h2, h3, h4⟩ := h
  have p1 := monthrange_pos d.year (d.month + 1)
  have p2 := monthrange_pos (d.year + 1) 1
  unfold nextDate
  split_ifs with c1 c2 <;> refine ⟨?_, ?_, ?_, ?_⟩ <;> dsimp only <;> omega

theorem serial_lt_nextDate {d : Date} (h : d.Valid) :
    serial d < serial (nextDate d) := by
  obtain ⟨h1, h2, h3, h4⟩ := h
  have h5 := monthrange_le d.year d.month
  unfold nextDate
  split_ifs with c1 c2 <;> unfold serial <;> simp <;> omega

/-- No valid date lies strictly between a valid date and its successor. -/
theorem nextDate_le_of_lt {a b : Date} (ha : a.Valid) (hb : b.Valid)
    (h : dateLt a b = true) : dateLe (nextDate a) b = true := by
  obtain ⟨ha1, ha2, ha3, ha4⟩ := ha
  obtain ⟨hb1, hb2, hb3, hb4⟩ := hb
  rw [dateLt_iff] at h
  have hkey : a.year = b.year → a.month = b.month →
      monthrange a.year a.month = monthrange b.year b.month := by
    intro e1 e2; rw [e1, e2]
  unfold nextDate
  split_ifs with c1 c2 <;> rw [dateLe_iff] <;> dsimp only <;> omega

/-- First day of the month of a date (`current_date.replace(day=1)`). -/
def firstOfMonth (d : Date) : Date := ⟨d.year, d.month, 1⟩

theorem firstOfMonth_valid {d : Date} (h : d.Valid) : (firstOfMonth d).Valid := by
  obtain ⟨h1, h2, h3, h4⟩ := h
  exact ⟨h1, h2, le_refl 1, monthrange_pos _ _⟩

theorem firstOfMonth_le {d : Date} (h : d.Valid) :
    dateLe (firstOfMonth d) d = true := by
  obtain ⟨h1, h2, h3, h4⟩ := h
  rw [dateLe_iff]
  right
  exact ⟨rfl, Or.inr ⟨rfl, h3⟩⟩

/-- Fuel-driven enumeration of the inclusive date interval; the fuel is an
upper bound on the number of days, so the guard alone decides the output. -/
def dateRangeAux : Nat → Date → Date → List Date
  | 0, _, _ => []
  | fuel + 1, cur, stop =>
    if dateLe cur stop then cur :: dateRangeAux fuel (nextDate cur) stop else []

/-- All dates from `s` to `e` inclusive, ascending: the model of
`pandas.date_range(start, end, freq=D)`. -/
def dateRange (s e : Date) : List Date :=
  dateRangeAux (serial e + 1 - serial s) s e

theorem dateRangeAux_fuel {f1 f2 : Nat} {cur stop : Date}
    (hcur : cur.Valid) (hstop : stop.Valid)
    (h1 : serial stop + 1 - serial cur ≤ f1)
    (h2 : serial stop + 1 - serial cur ≤ f2) :
    dateRangeAux f1 cur stop = dateRangeAux f2 cur stop := by
  induction f1 generalizing f2 cur with
  | zero =>
    have hlt : serial stop < serial cur := by omega
    have hg : dateLe cur stop = false := (dateLe_false_iff hcur hstop).mpr hlt
    cases f2 with
    | zero => rfl
    | succ f2' => simp [dateRangeAux, hg]
  | succ f1' ih =>
    cases f2 with
    | zero =>
      have hlt : serial stop < serial cur := by omega
      have hg : dateLe cur stop = false := (dateLe_false_iff hcur hstop).mpr hlt
      simp [dateRangeAux, hg]
    | succ f2' =>
      by_cases hg : dateLe cur stop = true
      · have hnv := nextDate_valid hcur
        have hstep := serial_lt_nextDate hcur
        simp only [dateRangeAux, hg, if_true]
        congr 1
        exact ih hnv (by omega) (by omega)
      · rw [Bool.not_eq_true] at hg
        simp [dateRangeAux, hg]

theorem dateRange_eq {s e : Date} (hs : s.Valid) (he : e.Valid) :
    dateRange s e =
      if dateLe s e then s :: dateRange (nextDate s) e else [] := by
  unfold dateRange
  by_cases hg : dateLe s e = true
  · have hle : serial s ≤ serial e := (le_iff_serial hs he).mp hg
    have hf : serial e + 1 - serial s = (serial e - serial s) + 1 := by omega
    rw [hf]
    simp only [dateRangeAux, hg, if_true]
    congr 1
    have hnv := nextDate_valid hs
    have hstep := serial_lt_nextDate hs
    exact dateRangeAux_fuel hnv he (by omega) (by omega)
  · rw [Bool.not_eq_true] at hg
    simp only [hg, Bool.false_eq_true, if_false]
    rcases hn : serial e + 1 - serial s with _ | n
    · rfl
    · simp [dateRangeAux, hg]

theorem mem_dateRange {s e : Date} (hs : s.Valid) (he : e.Valid) :
    ∀ x ∈ dateRange s e, x.Valid ∧ serial s ≤ serial x ∧ dateLe x e = true := by
  intro x hx
  by_cases hg : dateLe s e = true
  · rw [dateRange_eq hs he, if_pos hg] at hx
    rcases List.mem_cons.mp hx with rfl | hx'
    · exact ⟨hs, le_refl _, hg⟩
    · have hnv := nextDate_valid hs
      have hstep := serial_lt_nextDate hs
      have hse : serial s ≤ serial e := (le_iff_serial hs he).mp hg
      obtain ⟨hv, hser, hle⟩ := mem_dateRange hnv he x hx'
      exact ⟨hv, by omega, hle⟩
  · rw [Bool.not_eq_true] at hg
    rw [dateRange_eq hs he, hg] at hx
    simp at hx
termination_by serial e + 1 - serial s
decreasing_by
  omega

theorem pairwise_dateRange {s e : Date} (hs : s.Valid) (he : e.Valid) :
    (dateRange s e).Pairwise (fun a b => serial a < serial b) := by
  by_cases hg : dateLe s e = true
  · rw [dateRange_eq hs he, if_pos hg]
    have hnv := nextDate_valid hs
    have hstep := serial_lt_nextDate hs
    have hse : serial s ≤ serial e := (le_iff_serial hs he).mp hg
    refine List.pairwise_cons.mpr ⟨?_, pairwise_dateRange hnv he⟩
    intro x hx
    obtain ⟨_, hser, _⟩ := mem_dateRange hnv he x hx
    omega
  · rw [Bool.not_eq_true] at hg
    rw [dateRange_eq hs he, hg]
    simp
termination_by serial e + 1 - serial s
decreasing_by
  omega

/-- Filtering the range started at the first of the month down to the days on
or after `s` yields exactly the range started at `s` (models `IsTodayOrAfter`). -/
theorem filter_dateRange {s' s e : Date} (hs' : s'.Valid) (hs : s.Valid)
    (he : e.Valid) (h : dateLe s' s = true) :
    (dateRange s' e).filter (fun d => dateLe s d) = dateRange s e := by
  by_cases hg : dateLe s' e = true
  · rw [dateRange_eq hs' he, if_pos hg]
    by_cases hss : s = s'
    · subst hss
      rw [dateRange_eq hs he, if_pos hg]
      rw [List.filter_cons]
      have hrefl : dateLe s s = true := by
        rw [dateLe_iff]; right; exact ⟨rfl, Or.inr ⟨rfl, le_refl _⟩⟩
      simp only [hrefl, if_true]
      congr 1
      rw [List.filter_eq_self]
      intro x hx
      have hnv := nextDate_valid hs
      have hstep := serial_lt_nextDate hs
      obtain ⟨hv, hser, _⟩ := mem_dateRange hnv he x hx
      exact (le_iff_serial hs hv).mpr (by omega)
    · have hlt : serial s' < serial s := by
        have hle : serial s' ≤ serial s := (le_iff_serial hs' hs).mp h
        rcases Nat.lt_or_ge (serial s') (serial s) with hl | hge
        · exact hl
        · exact absurd (serial_inj hs' hs (by omega)).symm hss
      have hhead : dateLe s s' = false := (dateLe_false_iff hs hs').mpr hlt
      rw [List.filter_cons]
      simp only [hhead, Bool.false_eq_true, if_false]
      have hnv := nextDate_valid hs'
      have hstep := serial_lt_nextDate hs'
      have hse : serial s' ≤ serial e := (le_iff_serial hs' he).mp hg
      have hns : dateLe (nextDate s') s = true :=
        nextDate_le_of_lt hs' hs ((lt_iff_serial hs' hs).mpr hlt)
      exact filter_dateRange hnv hs he hns
  · rw [Bool.not_eq_true] at hg
    rw [dateRange_eq hs' he, hg]
    have hse : dateLe s e = false := by
      have h1 : serial e < serial s' := (dateLe_false_iff hs' he).mp hg
      have h2 : serial s' ≤ serial s := (le_iff_serial hs' hs).mp h
      exact (dateLe_false_iff hs he).mpr (by omega)
    rw [dateRange_eq hs he, hse]
    simp
termination_by serial e + 1 - serial s'
decreasing_by
  omega

/-- Month key of a date, the model of `date.dt.to_period(M)`: two valid dates
share a key iff they share year and month, and the key is monotone in time. -/
def monthKey (d : Date) : Nat := 12 * d.year + d.month

theorem monthKey_mono {a b : Date} (ha : a.Valid) (hb : b.Valid)
    (h : serial a < serial b) : monthKey a ≤ monthKey b := by
  obtain ⟨ha1, ha2, ha3, ha4⟩ := valid_bounds ha
  obtain ⟨hb1, hb2, hb3, hb4⟩ := valid_bounds hb
  unfold monthKey
  unfold serial at h
  omega

theorem monthKey_inj {a b : Date} (ha : a.Valid) (hb : b.Valid)
    (h : monthKey a = monthKey b) : a.year = b.year ∧ a.month = b.month := by
  obtain ⟨ha1, ha2, _, _⟩ := valid_bounds ha
  obtain ⟨hb1, hb2, _, _⟩ := valid_bounds hb
  unfold monthKey at h
  omega

theorem pairwise_monthKey_dateRange {s e : Date} (hs : s.Valid) (he : e.Valid) :
    (dateRange s e).Pairwise (fun a b => monthKey a ≤ monthKey b) := by
  refine (pairwise_dateRange hs he).imp_of_mem ?_
  intro a b hma hmb hr
  exact monthKey_mono (mem_dateRange hs he a hma).1 (mem_dateRange hs he b hmb).1 hr

theorem nodup_dateRange {s e : Date} (hs : s.Valid) (he : e.Valid) :
    (dateRange s e).Nodup := by
  refine (pairwise_dateRange hs he).imp ?_
  intro a b h heq
  rw [heq] at h
  omega

/-- At most 31 in-range days can share one month key. -/
theorem length_filter_monthKey_le {s e : Date} (hs : s.Valid) (he : e.Valid)
    (k : Nat) :
    ((dateRange s e).filter (fun d => monthKey d == k)).length ≤ 31 := by
  set l := (dateRange s e).filter (fun d => monthKey d == k) with hl
  have hsub : l.Sublist (dateRange s e) := List.filter_sublist _
  have hnd : l.Nodup := (nodup_dateRange hs he).sublist hsub
  have hval : ∀ x ∈ l, x.Valid := fun x hx =>
    (mem_dateRange hs he x (hsub.subset hx)).1
  have hkey : ∀ x ∈ l, monthKey x = k := by
    intro x hx
    have := List.of_mem_filter hx
    simpa using this
  have hmapnd : (l.map Date.day).Nodup := by
    refine hnd.map_on ?_
    intro x hx y hy hxy
    have h1 := monthKey_inj (hval x hx) (hval y hy)
      ((hkey x hx).trans (hkey y hy).symm)
    cases x; cases y
    simp_all
  have hbound : (l.map Date.day).length ≤ 31 := by
    have hsubset : (l.map Date.day).toFinset ⊆ Finset.Icc 1 31 := by
      intro v hv
      obtain ⟨x, hx, rfl⟩ := List.mem_map.mp (List.mem_toFinset.mp hv)
      have := valid_bounds (hval x hx)
      rw [Finset.mem_Icc]
      omega
    calc (l.map Date.day).length = (l.map Date.day).toFinset.card :=
          (List.toFinset_card_of_nodup hmapnd).symm
      _ ≤ (Finset.Icc 1 31).card := Finset.card_le_card hsubset
      _ = 31 := by rw [Nat.card_Icc]
  simpa using hbound

/-- One classified day (one row of the dataframe): date plus `IsClosed`. -/
structure Day where
  date : Date
  isClosed : Bool
deriving DecidableEq, Repr, Inhabited

/-- One output row (`final_df`): date plus the `percentage` weight. -/
structure WeightedDay where
  date : Date
  weight : ℚ
deriving DecidableEq, Repr, Inhabited

/-- Closed-for-business period, inclusive on both ends; `stop` models the
`end` key of the Python dict. -/
structure ClosedPeriod where
  start : Date
  stop : Date
deriving DecidableEq, Repr, Inhabited

/-- Day classifier (`is_closed` in pcal.py, Step 2): a date is closed iff it
falls inside at least one closed period. -/
def is_closed (d : Date) (cps : List ClosedPeriod) : Bool :=
  cps.any (fun p => dateLe p.start d && dateLe d p.stop)

/-- Step 6: the count of active (open) days of the group. -/
def N (g : List Day) : Nat := (g.filter (fun d => !d.isClosed)).length

/-- Step 6: the count of closed days of the group. -/
def C (g : List Day) : Nat := (g.filter (fun d => d.isClosed)).length

/-- Step 6: total day count guarded against a division by zero. -/
def N_plus_C (g : List Day) : Nat := if N g + C g > 0 then N g + C g else 1

/-- The base unit weight `1 / N_plus_C`. -/
def baseU (g : List Day) : ℚ := 1 / (N_plus_C g : ℚ)

/-- Whether the `i`-th row of the group satisfies `p` (false out of range). -/
def holdsAt (p : Day → Bool) (g : List Day) (i : Nat) : Bool :=
  (g[i]?).elim false p

def closedAt (g : List Day) (i : Nat) : Bool := holdsAt (fun d => d.isClosed) g i

def openAt (g : List Day) (i : Nat) : Bool := holdsAt (fun d => !d.isClosed) g i

/-- Steps 9-10: the last index `j < i` whose row is active, if any. -/
def find_preceding_active_index (g : List Day) (i : Nat) : Option Nat :=
  ((List.range g.length).filter (fun j => decide (j < i) && openAt g j)).getLast?

/-- Steps 11-12: how many closed rows have `i` as preceding active index. -/
def ClosedDaysCount (g : List Day) (i : Nat) : Nat :=
  ((List.range g.length).filter
    (fun j => closedAt g j && (find_preceding_active_index g j == some i))).length

/-- Step 7: base weight of row `i` (0 when closed, the base unit otherwise). -/
def BasePercentage (g : List Day) (i : Nat) : ℚ :=
  if closedAt g i then 0 else baseU g

/-- Steps 13-15: the rolled-forward extra weight of row `i` (0 by `fillna`
when no closed day points at `i`). -/
def ExtraPercentage (g : List Day) (i : Nat) : ℚ :=
  (ClosedDaysCount g i : ℚ) * baseU g

/-- Step 16: base plus extra weight. -/
def FinalPercentage (g : List Day) (i : Nat) : ℚ :=
  BasePercentage g i + ExtraPercentage g i

/-- Step 17: the output weight of row `i` (0 when closed). -/
def percentage (g : List Day) (i : Nat) : ℚ :=
  if closedAt g i then 0 else FinalPercentage g i

/-- Date of the `i`-th row of the group. -/
def dateAt (g : List Day) (i : Nat) : Date := ((g[i]?).map Day.date).getD default

/-- The per-month output table before the rounding correction (Step 18). -/
def monthPre (g : List Day) : List WeightedDay :=
  (List.range g.length).map (fun i => ⟨dateAt g i, percentage g i⟩)

/-- Step 19: `total_percentage = month_final.percentage.sum()`. -/
def totalPercentage (g : List Day) : ℚ :=
  ((monthPre g).map WeightedDay.weight).sum

/-- numpy.isclose with its default tolerances rtol=1e-5 and atol=1e-8:
true iff `|a - b| ≤ atol + rtol * |b|`. -/
def npIsClose (a b : ℚ) : Bool :=
  decide (|a - b| ≤ 1 / 100000000 + (1 / 100000) * |b|)

/-- Step 19: add the adjustment to the first row with positive weight
(`month_final.at[first_active_idx, percentage] += adjustment`); identity when
no row has positive weight. -/
def addToFirstActive (adj : ℚ) : List WeightedDay → List WeightedDay
  | [] => []
  | w :: rest =>
    if 0 < w.weight then ⟨w.date, w.weight + adj⟩ :: rest
    else w :: addToFirstActive adj rest

/-- Full allocation of one month group (Steps 6-19 of pcal.py). -/
def allocMonth (g : List Day) : List WeightedDay :=
  if npIsClose (totalPercentage g) 1 then monthPre g
  else addToFirstActive (1 - totalPercentage g) (monthPre g)

/-- The distinct month keys of the rows, in order of appearance.  The rows
this is applied to are in ascending date order, so this order coincides with
the ascending key order that `groupby` uses. -/
def monthKeys (l : List Day) : List Nat :=
  (l.map (fun d => monthKey d.date)).dedup

/-- The rows of one month group (`groupby` keeps the original row order). -/
def monthGroup (l : List Day) (k : Nat) : List Day :=
  l.filter (fun d => monthKey d.date == k)

/-- Classify one date (Steps 1-2). -/
def mkDay (cps : List ClosedPeriod) (d : Date) : Day := ⟨d, is_closed d cps⟩

/-- The in-range classified days (dataframe `remaining`, Steps 2-5): all days
from the first of the current month to the range end, kept when on/after
today (`IsTodayOrAfter`). -/
def remainingDays (today e : Date) (cps : List ClosedPeriod) : List Day :=
  ((dateRange (firstOfMonth today) e).map (mkDay cps)).filter
    (fun d => dateLe today d.date)

/-- The final output (`final_df`): concatenation of the per-month allocations
over the month keys in order. -/
def allocate (today e : Date) (cps : List ClosedPeriod) : List WeightedDay :=
  (monthKeys (remainingDays today e cps)).flatMap
    (fun k => allocMonth (monthGroup (remainingDays today e cps) k))

/-- Top-level validity guard (line 334 of pcal.py): the output table is
computed only when the end of the end month is on/after the start of the
current month; otherwise nothing is produced. -/
def runPcal (today e : Date) (cps : List ClosedPeriod) :
    Option (List WeightedDay) :=
  if dateLe (firstOfMonth today) e then some (allocate today e cps) else none

theorem holdsAt_cons_zero (p : Day → Bool) (d : Day) (t : List Day) :
    holdsAt p (d :: t) 0 = p d := by
  simp [holdsAt]

theorem holdsAt_cons_succ (p : Day → Bool) (d : Day) (t : List Day) (j : Nat) :
    holdsAt p (d :: t) (j + 1) = holdsAt p t j := by
  simp [holdsAt]

theorem holdsAt_iff {p : Day → Bool} {g : List Day} {i : Nat} :
    holdsAt p g i = true ↔ ∃ d, g[i]? = some d ∧ p d = true := by
  cases h : g[i]? <;> simp [holdsAt, h]

theorem lt_length_of_holdsAt {p : Day → Bool} {g : List Day} {i : Nat}
    (h : holdsAt p g i = true) : i < g.length := by
  obtain ⟨d, hd, _⟩ := holdsAt_iff.mp h
  by_contra hge
  rw [List.getElem?_eq_none (by omega)] at hd
  cases hd

theorem openAt_eq_not_closedAt {g : List Day} {i : Nat} (h : i < g.length) :
    openAt g i = !closedAt g i := by
  have : g[i]? = some g[i] := List.getElem?_eq_getElem h
  simp [openAt, closedAt, holdsAt, this]

theorem not_open_and_closed {g : List Day} {i : Nat} :
    ¬(openAt g i = true ∧ closedAt g i = true) := by
  rintro ⟨h1, h2⟩
  have hl := lt_length_of_holdsAt h1
  rw [openAt_eq_not_closedAt hl, h2] at h1
  cases h1

/-- Counting indices of the range that satisfy a row predicate is the same as
counting rows that satisfy it. -/
theorem length_filter_range_holdsAt (p : Day → Bool) (g : List Day) :
    ((List.range g.length).filter (fun j => holdsAt p g j)).length
      = (g.filter p).length := by
  induction g with
  | nil => rfl
  | cons d t ih =>
    have hcomp : ((fun j => holdsAt p (d :: t) j) ∘ Nat.succ)
        = (fun j => holdsAt p t j) := by
      funext j
      simp [Function.comp, holdsAt_cons_succ]
    rw [List.length_cons, List.range_succ_eq_map, List.filter_cons,
      List.filter_map, hcomp]
    rw [List.filter_cons]
    by_cases hpd : p d
    · simp [holdsAt_cons_zero, hpd, ih]
    · simp [holdsAt_cons_zero, hpd, ih]

theorem N_add_C (g : List Day) : N g + C g = g.length := by
  induction g with
  | nil => rfl
  | cons d t ih =>
    by_cases h : d.isClosed <;>
      simp only [N, C, List.filter_cons, h, Bool.not_true, Bool.not_false,
        List.length_cons] at * <;>
      simp <;> omega

theorem N_plus_C_eq {g : List Day} (h : 0 < g.length) :
    N_plus_C g = g.length := by
  unfold N_plus_C
  rw [if_pos (by rw [N_add_C]; omega), N_add_C]

theorem N_eq_countP (g : List Day) :
    N g = ((List.range g.length).filter (fun j => openAt g j)).length := by
  rw [N]
  rw [← length_filter_range_holdsAt (fun d => !d.isClosed) g]
  rfl

theorem C_eq_countP (g : List Day) :
    C g = ((List.range g.length).filter (fun j => closedAt g j)).length := by
  rw [C]
  rw [← length_filter_range_holdsAt (fun d => d.isClosed) g]
  rfl

/-- Characterisation of the last element of a filtered index range: it is the
largest index below `n` satisfying the predicate. -/
theorem getLast_filter_range {p : Nat → Bool} {n i : Nat} :
    ((List.range n).filter p).getLast? = some i ↔
      (p i = true ∧ i < n ∧ ∀ m, i < m → m < n → p m = false) := by
  induction n with
  | zero => simp
  | succ n ih =>
    rw [List.range_succ, List.filter_append]
    by_cases hpn : p n = true
    · rw [show List.filter p [n] = [n] by simp [hpn]]
      rw [List.getLast?_concat]
      constructor
      · rintro h
        have hin : i = n := by
          injection h with h
          omega
        subst hin
        exact ⟨hpn, by omega, by omega⟩
      · rintro ⟨hpi, hlt, hmax⟩
        have hin : i = n := by
          by_contra hne
          have := hmax n (by omega) (by omega)
          rw [hpn] at this
          cases this
        subst hin
        rfl
    · rw [show List.filter p [n] = [] by simp [hpn]]
      rw [List.append_nil, ih]
      constructor
      · rintro ⟨hpi, hlt, hmax⟩
        refine ⟨hpi, by omega, ?_⟩
        intro m h1 h2
        rcases Nat.lt_or_ge m n with hm | hm
        · exact hmax m h1 hm
        · have hmn : m = n := by omega
          subst hmn
          simpa using hpn
      · rintro ⟨hpi, hlt, hmax⟩
        have hin : i < n := by
          rcases Nat.lt_or_ge i n with h | h
          · exact h
          · have hieq : i = n := by omega
            subst hieq
            exact absurd hpi hpn
        exact ⟨hpi, hin, fun m h1 h2 => hmax m h1 (by omega)⟩

/-- The backward scan of Steps 9-10 finds exactly the nearest preceding open
row: an open index below `i` with no open index strictly between. -/
theorem find_preceding_eq_some_iff {g : List Day} {j i : Nat} :
    find_preceding_active_index g j = some i ↔
      (i < j ∧ openAt g i = true ∧
        ∀ m, i < m → m < j → openAt g m = false) := by
  unfold find_preceding_active_index
  rw [getLast_filter_range]
  constructor
  · rintro ⟨hpi, hlt, hmax⟩
    rw [Bool.and_eq_true, decide_eq_true_iff] at hpi
    refine ⟨hpi.1, hpi.2, ?_⟩
    intro m h1 h2
    rcases Nat.lt_or_ge m g.length with hm | hm
    · have := hmax m h1 hm
      rw [Bool.and_eq_false_iff] at this
      rcases this with h | h
      · rw [decide_eq_false_iff_not] at h
        omega
      · exact h
    · cases ho : openAt g m
      · rfl
      · exact absurd (lt_length_of_holdsAt ho) (by omega)
  · rintro ⟨h1, h2, h3⟩
    have hilen : i < g.length := lt_length_of_holdsAt h2
    refine ⟨by simp [h1, h2], hilen, ?_⟩
    intro m hm1 hm2
    by_cases hmj : m < j
    · rw [h3 m hm1 hmj]
      simp
    · simp [hmj]

theorem find_preceding_open {g : List Day} {j i : Nat}
    (h : find_preceding_active_index g j = some i) :
    openAt g i = true ∧ i < g.length ∧ i < j :=
  have h' := find_preceding_eq_some_iff.mp h
  ⟨h'.2.1, lt_length_of_holdsAt h'.2.1, h'.1⟩

theorem find_preceding_zero (g : List Day) :
    find_preceding_active_index g 0 = none := by
  unfold find_preceding_active_index
  rw [show (List.range g.length).filter (fun j => decide (j < 0) && openAt g j)
      = [] from List.filter_eq_nil.mpr (by intro a _; simp)]
  rfl

theorem ClosedDaysCount_eq_zero_of_closed {g : List Day} {i : Nat}
    (h : closedAt g i = true) : ClosedDaysCount g i = 0 := by
  unfold ClosedDaysCount
  rw [List.length_eq_zero]
  rw [List.filter_eq_nil]
  intro j _
  rw [Bool.and_eq_true]
  rintro ⟨hc, hbeq⟩
  rw [beq_iff_eq] at hbeq
  have := (find_preceding_open hbeq).1
  exact not_open_and_closed ⟨this, h⟩

theorem sum_map_add_distrib {α : Type} {M : Type} [AddCommMonoid M]
    (l : List α) (f h : α → M) :
    (l.map (fun x => f x + h x)).sum = (l.map f).sum + (l.map h).sum := by
  induction l with
  | nil => simp
  | cons a t ih =>
    simp only [List.map_cons, List.sum_cons, ih]
    abel

theorem sum_map_ite_const (l : List Nat) (p : Nat → Bool) (u : ℚ) :
    (l.map (fun i => if p i then u else 0)).sum = (l.countP p : ℚ) * u := by
  induction l with
  | nil => simp
  | cons a t ih =>
    by_cases h : p a <;>
      simp [List.countP_cons, h, ih] <;> push_cast <;> ring

theorem sum_map_natCast_mul (l : List Nat) (c : Nat → Nat) (u : ℚ) :
    (l.map (fun i => (c i : ℚ) * u)).sum = (((l.map c).sum : ℕ) : ℚ) * u := by
  induction l with
  | nil => simp
  | cons a t ih =>
    simp only [List.map_cons, List.sum_cons, ih]
    push_cast
    ring

theorem sum_indicator_eq_one {li : List Nat} {i0 : Nat} (hnd : li.Nodup)
    (h : i0 ∈ li) :
    (li.map (fun i => if i0 = i then (1 : ℕ) else 0)).sum = 1 := by
  induction li with
  | nil => cases h
  | cons a t ih =>
    obtain ⟨hna, hnt⟩ := List.nodup_cons.mp hnd
    rcases List.mem_cons.mp h with rfl | ht
    · simp only [List.map_cons, List.sum_cons, if_pos rfl]
      have hz : ∀ i ∈ t, (if i0 = i then (1 : ℕ) else 0) = 0 := by
        intro i hi
        rw [if_neg]
        rintro rfl
        exact hna hi
      rw [List.map_congr_left hz]
      simp
    · have ha : i0 ≠ a := by
        rintro rfl
        exact hna ht
      simp only [List.map_cons, List.sum_cons, if_neg ha, ih hnt ht]

/-- Double counting: summing, over the candidate targets, the number of
sources sent to each target equals the number of sources with some target. -/
theorem sum_counts {ls li : List Nat} {q : Nat → Bool} {f : Nat → Option Nat}
    (hnd : li.Nodup)
    (H : ∀ j ∈ ls, q j = true → ∀ i, f j = some i → i ∈ li) :
    (li.map (fun i => (ls.filter (fun j => q j && f j == some i)).length)).sum
      = (ls.filter (fun j => q j && (f j).isSome)).length := by
  induction ls with
  | nil => simp
  | cons j ls' ih =>
    have H' : ∀ a ∈ ls', q a = true → ∀ i, f a = some i → i ∈ li :=
      fun a ha => H a (List.mem_cons_of_mem _ ha)
    by_cases hq : q j = true
    · cases hf : f j with
      | none =>
        have hmap : ∀ i ∈ li,
            ((j :: ls').filter (fun a => q a && f a == some i)).length
              = (ls'.filter (fun a => q a && f a == some i)).length := by
          intro i _
          rw [List.filter_cons]
          simp [hq, hf]
        rw [List.map_congr_left hmap, ih H', List.filter_cons]
        simp [hq, hf]
      | some i0 =>
        have hi0 : i0 ∈ li := H j (List.mem_cons_self _ _) hq i0 hf
        have hmap : ∀ i ∈ li,
            ((j :: ls').filter (fun a => q a && f a == some i)).length
              = (if i0 = i then 1 else 0)
                + (ls'.filter (fun a => q a && f a == some i)).length := by
          intro i _
          rw [List.filter_cons]
          by_cases hii : i0 = i
          · subst hii
            simp [hq, hf]
            omega
          · simp [hq, hf, hii]
        rw [List.map_congr_left hmap, sum_map_add_distrib, ih H',
          sum_indicator_eq_one hnd hi0, List.filter_cons]
        simp [hq, hf]
        omega
    · have hmap : ∀ i ∈ li,
          ((j :: ls').filter (fun a => q a && f a == some i)).length
            = (ls'.filter (fun a => q a && f a == some i)).length := by
        intro i _
        rw [List.filter_cons]
        simp [hq]
      rw [List.map_congr_left hmap, ih H', List.filter_cons]
      simp [hq]

/-- The length of `closed_days_with_preceding` (Step 11): the number of
closed rows that do have a preceding active row. -/
def closedWithPreceding (g : List Day) : Nat :=
  ((List.range g.length).filter
    (fun j => closedAt g j && (find_preceding_active_index g j).isSome)).length

theorem closedAt_eq_false_iff {g : List Day} {i : Nat} (h : i < g.length) :
    closedAt g i = false ↔ openAt g i = true := by
  rw [openAt_eq_not_closedAt h]
  cases closedAt g i <;> simp

theorem percentage_eq_pointwise {g : List Day} {i : Nat} (h : i < g.length) :
    percentage g i = (if openAt g i then baseU g else 0)
      + (ClosedDaysCount g i : ℚ) * baseU g := by
  unfold percentage FinalPercentage BasePercentage ExtraPercentage
  by_cases hc : closedAt g i = true
  · have ho : openAt g i = false := by
      rw [openAt_eq_not_closedAt h, hc]
      rfl
    rw [if_pos hc, ClosedDaysCount_eq_zero_of_closed hc, ho]
    simp
  · have hc' : closedAt g i = false := by
      revert hc
      cases closedAt g i <;> simp
    have ho : openAt g i = true := (closedAt_eq_false_iff h).mp hc'
    rw [hc', ho]
    simp

theorem totalPercentage_formula (g : List Day) :
    totalPercentage g
      = ((N g : ℚ) + (closedWithPreceding g : ℚ)) * baseU g := by
  unfold totalPercentage monthPre
  rw [List.map_map]
  have hmap : (WeightedDay.weight ∘
      fun i => (⟨dateAt g i, percentage g i⟩ : WeightedDay))
      = fun i => percentage g i := rfl
  rw [hmap]
  have hpt : ∀ i ∈ List.range g.length,
      percentage g i = (if openAt g i then baseU g else 0)
        + (ClosedDaysCount g i : ℚ) * baseU g := by
    intro i hi
    exact percentage_eq_pointwise (List.mem_range.mp hi)
  rw [List.map_congr_left hpt, sum_map_add_distrib, sum_map_ite_const]
  have hN : (List.range g.length).countP (fun i => openAt g i) = N g := by
    rw [List.countP_eq_length_filter, N_eq_countP]
  have hcd : (fun i => (ClosedDaysCount g i : ℚ) * baseU g)
      = fun i => ((((List.range g.length).filter
          (fun j => closedAt g j
            && (find_preceding_active_index g j == some i))).length : ℕ) : ℚ)
        * baseU g := rfl
  rw [hcd, sum_map_natCast_mul]
  have hDC : ((List.range g.length).map (fun i =>
      ((List.range g.length).filter (fun j => closedAt g j
        && (find_preceding_active_index g j == some i))).length)).sum
      = closedWithPreceding g := by
    apply sum_counts (List.nodup_range _)
    intro j _ _ i hsome
    exact List.mem_range.mpr (find_preceding_open hsome).2.1
  rw [hDC, hN]
  ring

theorem baseU_pos {g : List Day} (h : 0 < g.length) : 0 < baseU g := by
  unfold baseU
  rw [N_plus_C_eq h]
  apply div_pos one_pos
  exact_mod_cast h

theorem percentage_pos_of_open {g : List Day} {i : Nat}
    (ho : openAt g i = true) : 0 < percentage g i := by
  have hl := lt_length_of_holdsAt ho
  have hc : closedAt g i = false := (closedAt_eq_false_iff hl).mpr ho
  have h1 : 0 < baseU g := baseU_pos (by omega)
  have h2 : (0 : ℚ) ≤ (ClosedDaysCount g i : ℚ) * baseU g := by positivity
  unfold percentage FinalPercentage BasePercentage ExtraPercentage
  rw [hc]
  simp only [Bool.false_eq_true, if_false]
  linarith

theorem closedWithPreceding_le_C (g : List Day) :
    closedWithPreceding g ≤ C g := by
  rw [C_eq_countP]
  unfold closedWithPreceding
  rw [← List.countP_eq_length_filter, ← List.countP_eq_length_filter]
  apply List.countP_mono_left
  intro j _ h
  rw [Bool.and_eq_true] at h
  exact h.1

theorem addToFirstActive_length (adj : ℚ) (l : List WeightedDay) :
    (addToFirstActive adj l).length = l.length := by
  induction l with
  | nil => rfl
  | cons w rest ih =>
    unfold addToFirstActive
    split_ifs <;> simp [ih]

theorem addToFirstActive_map_date (adj : ℚ) (l : List WeightedDay) :
    (addToFirstActive adj l).map WeightedDay.date
      = l.map WeightedDay.date := by
  induction l with
  | nil => rfl
  | cons w rest ih =>
    unfold addToFirstActive
    split_ifs <;> simp [ih]

theorem addToFirstActive_sum {adj : ℚ} {l : List WeightedDay}
    (h : ∃ w ∈ l, 0 < w.weight) :
    ((addToFirstActive adj l).map WeightedDay.weight).sum
      = (l.map WeightedDay.weight).sum + adj := by
  induction l with
  | nil =>
    obtain ⟨w, hw, _⟩ := h
    cases hw
  | cons w rest ih =>
    unfold addToFirstActive
    by_cases hp : 0 < w.weight
    · rw [if_pos hp]
      simp only [List.map_cons, List.sum_cons]
      ring
    · rw [if_neg hp]
      obtain ⟨x, hx, hxp⟩ := h
      rcases List.mem_cons.mp hx with rfl | hx'
      · exact absurd hxp hp
      · simp only [List.map_cons, List.sum_cons, ih ⟨x, hx', hxp⟩]
        ring

theorem addToFirstActive_no_pos {adj : ℚ} {l : List WeightedDay}
    (h : ∀ w ∈ l, ¬0 < w.weight) :
    addToFirstActive adj l = l := by
  induction l with
  | nil => rfl
  | cons w rest ih =>
    unfold addToFirstActive
    rw [if_neg (h w (List.mem_cons_self _ _)),
      ih (fun x hx => h x (List.mem_cons_of_mem _ hx))]

/-- Positional behaviour of the rounding correction: with the first positive
row at index `i0`, only that row changes, by exactly the adjustment. -/
theorem addToFirstActive_getElem {adj : ℚ} {l : List WeightedDay} {i0 : Nat}
    (h0 : ∀ j < i0, ∀ x : WeightedDay, l[j]? = some x → ¬0 < x.weight)
    (h1 : ∃ w, l[i0]? = some w ∧ 0 < w.weight) :
    ∀ j, (addToFirstActive adj l)[j]?
      = if j = i0 then
          (l[i0]?).map (fun w => (⟨w.date, w.weight + adj⟩ : WeightedDay))
        else l[j]? := by
  induction l generalizing i0 with
  | nil =>
    obtain ⟨w, hw, _⟩ := h1
    cases hw
  | cons w rest ih =>
    intro j
    by_cases hp : 0 < w.weight
    · have hi0 : i0 = 0 := by
        by_contra hne
        exact h0 0 (by omega) w (by simp) hp
      subst hi0
      unfold addToFirstActive
      rw [if_pos hp]
      cases j with
      | zero => simp
      | succ m => simp
    · have hi0 : i0 ≠ 0 := by
        rintro rfl
        obtain ⟨x, hx, hxp⟩ := h1
        rw [List.getElem?_cons_zero] at hx
        injection hx with hx
        subst hx
        exact hp hxp
      obtain ⟨k, rfl⟩ : ∃ k, i0 = k + 1 := ⟨i0 - 1, by omega⟩
      unfold addToFirstActive
      rw [if_neg hp]
      have h0' : ∀ j < k, ∀ x : WeightedDay, rest[j]? = some x
          → ¬0 < x.weight := by
        intro j hj x hx
        exact h0 (j + 1) (by omega) x (by simpa using hx)
      have h1' : ∃ w, rest[k]? = some w ∧ 0 < w.weight := by
        simpa using h1
      cases j with
      | zero => simp
      | succ m =>
        rw [List.getElem?_cons_succ, ih h0' h1' m, List.getElem?_cons_succ]
        by_cases hm : m = k <;> simp [hm]

theorem monthPre_length (g : List Day) : (monthPre g).length = g.length := by
  simp [monthPre]

theorem monthPre_getElem {g : List Day} {i : Nat} (h : i < g.length) :
    (monthPre g)[i]? = some ⟨dateAt g i, percentage g i⟩ := by
  unfold monthPre
  rw [List.getElem?_map, List.getElem?_range h]
  rfl

theorem exists_pos_weight {g : List Day} (h : 0 < N g) :
    ∃ w ∈ monthPre g, 0 < w.weight := by
  have hpos : 0 < ((List.range g.length).filter (fun j => openAt g j)).length := by
    rw [← N_eq_countP]
    exact h
  obtain ⟨i, hi⟩ := List.exists_mem_of_length_pos hpos
  obtain ⟨hirange, hio⟩ := List.mem_filter.mp hi
  refine ⟨⟨dateAt g i, percentage g i⟩, ?_, percentage_pos_of_open hio⟩
  unfold monthPre
  exact List.mem_map.mpr ⟨i, hirange, rfl⟩

theorem range_map_dateAt (g : List Day) :
    (List.range g.length).map (fun i => dateAt g i) = g.map Day.date := by
  induction g with
  | nil => rfl
  | cons d t ih =>
    rw [List.length_cons, List.range_succ_eq_map, List.map_cons, List.map_map]
    have hcomp : ((fun i => dateAt (d :: t) i) ∘ Nat.succ)
        = fun i => dateAt t i := by
      funext i
      simp [Function.comp, dateAt]
    rw [hcomp, ih, List.map_cons]
    have hd : dateAt (d :: t) 0 = d.date := by
      simp [dateAt]
    rw [hd]

theorem allocMonth_length (g : List Day) : (allocMonth g).length = g.length := by
  unfold allocMonth
  split_ifs
  · exact monthPre_length g
  · rw [addToFirstActive_length, monthPre_length]

theorem monthPre_map_date (g : List Day) :
    (monthPre g).map WeightedDay.date = g.map Day.date := by
  unfold monthPre
  rw [List.map_map]
  have hcomp : (WeightedDay.date ∘
      fun i => (⟨dateAt g i, percentage g i⟩ : WeightedDay))
      = fun i => dateAt g i := rfl
  rw [hcomp]
  exact range_map_dateAt g

theorem allocMonth_map_date (g : List Day) :
    (allocMonth g).map WeightedDay.date = g.map Day.date := by
  unfold allocMonth
  split_ifs
  · exact monthPre_map_date g
  · rw [addToFirstActive_map_date]
    exact monthPre_map_date g

theorem npIsClose_iff {a b : ℚ} :
    npIsClose a b = true ↔ |a - b| ≤ 1 / 100000000 + (1 / 100000) * |b| := by
  simp [npIsClose]

theorem totalPercentage_le_one {g : List Day} (hglen : 0 < g.length) :
    totalPercentage g ≤ 1 := by
  have hform := totalPercentage_formula g
  have hK := closedWithPreceding_le_C g
  have hNC := N_add_C g
  have hle : N g + closedWithPreceding g ≤ g.length := by omega
  have hDpos : (0 : ℚ) < (g.length : ℚ) := by exact_mod_cast hglen
  have hu : baseU g = 1 / (g.length : ℚ) := by
    unfold baseU
    rw [N_plus_C_eq hglen]
  rw [hform, hu]
  rw [div_eq_mul_inv, one_mul, ← div_eq_mul_inv, div_le_one hDpos]
  push_cast
  exact_mod_cast hle

/-- Core month lemma: a group with an open day and at most 31 rows (as every
calendar month group has) gets total output weight exactly 1. -/
theorem allocMonth_sum_eq_one {g : List Day} (hopen : 0 < N g)
    (hlen : g.length ≤ 31) :
    ((allocMonth g).map WeightedDay.weight).sum = 1 := by
  have hNC := N_add_C g
  have hglen : 0 < g.length := by omega
  have hK := closedWithPreceding_le_C g
  have hDpos : (0 : ℚ) < (g.length : ℚ) := by exact_mod_cast hglen
  have hu : baseU g = 1 / (g.length : ℚ) := by
    unfold baseU
    rw [N_plus_C_eq hglen]
  have hSval : totalPercentage g
      = ((N g + closedWithPreceding g : ℕ) : ℚ) / (g.length : ℚ) := by
    rw [totalPercentage_formula, hu]
    push_cast
    ring
  by_cases hexact : N g + closedWithPreceding g = g.length
  · have hS1 : totalPercentage g = 1 := by
      rw [hSval, hexact]
      field_simp
    have hcl : npIsClose (totalPercentage g) 1 = true := by
      rw [npIsClose_iff, hS1]
      norm_num
    unfold allocMonth
    rw [if_pos hcl]
    exact hS1
  · have hlt : N g + closedWithPreceding g < g.length := by omega
    have hgap : (1 : ℚ) / (g.length : ℚ) ≤ 1 - totalPercentage g := by
      have hn1 : ((N g + closedWithPreceding g : ℕ) : ℚ) + 1
          ≤ (g.length : ℚ) := by exact_mod_cast hlt
      rw [hSval, le_sub_iff_add_le, div_add_div_same, div_le_one hDpos]
      linarith
    have hgapD : (1 : ℚ) / 31 ≤ 1 / (g.length : ℚ) := by
      apply one_div_le_one_div_of_le hDpos
      exact_mod_cast hlen
    have hcl : npIsClose (totalPercentage g) 1 = false := by
      rw [Bool.eq_false_iff]
      intro hcl'
      rw [npIsClose_iff] at hcl'
      rw [abs_of_nonpos (by linarith [totalPercentage_le_one hglen])] at hcl'
      have habs : |(1 : ℚ)| = 1 := by norm_num
      rw [habs] at hcl'
      have : (1 : ℚ) / 31 ≤ 1 / 100000000 + 1 / 100000 * 1 := by linarith
      norm_num at this
    unfold allocMonth
    rw [hcl]
    simp only [Bool.false_eq_true, if_false]
    rw [addToFirstActive_sum (exists_pos_weight hopen)]
    show totalPercentage g + (1 - totalPercentage g) = 1
    ring

/-- Splitting a key-sorted nonempty list into its first key run and the rest
(every later element has a strictly larger key). -/
theorem sorted_key_split {α : Type} (key : α → Nat) (x : α) (t : List α)
    (h : (x :: t).Pairwise (fun a b => key a ≤ key b)) :
    ∃ run rest, x :: t = run ++ rest ∧ run ≠ []
      ∧ (∀ y ∈ run, key y = key x) ∧ (∀ y ∈ rest, key x < key y) := by
  induction t generalizing x with
  | nil => exact ⟨[x], [], by simp, by simp, by simp, by simp⟩
  | cons y t' ih =>
    obtain ⟨hx, hyt⟩ := List.pairwise_cons.mp h
    by_cases hk : key y = key x
    · obtain ⟨run', rest', heq, hne, hkeys, hrest⟩ := ih y hyt
      refine ⟨x :: run', rest', by rw [List.cons_append, ← heq], by simp, ?_, ?_⟩
      · intro z hz
        rcases List.mem_cons.mp hz with rfl | hz'
        · rfl
        · rw [hkeys z hz', hk]
      · intro z hz
        rw [← hk]
        exact hrest z hz
    · have hlt : key x < key y := by
        have := hx y (List.mem_cons_self _ _)
        omega
      refine ⟨[x], y :: t', by simp, by simp, by simp, ?_⟩
      intro z hz
      rcases List.mem_cons.mp hz with rfl | hz'
      · exact hlt
      · have h1 := List.pairwise_cons.mp hyt
        have := h1.1 z hz'
        omega

/-- Deduplicating a block of equal keys followed by keys that avoid it. -/
theorem dedup_append_of_all_eq {k0 : Nat} {A B : List Nat}
    (hA : ∀ a ∈ A, a = k0) (hne : A ≠ []) (hB : k0 ∉ B) :
    (A ++ B).dedup = k0 :: B.dedup := by
  induction A with
  | nil => exact absurd rfl hne
  | cons a A' ih =>
    have ha : a = k0 := hA a (List.mem_cons_self _ _)
    subst ha
    cases A' with
    | nil =>
      simp only [List.nil_append, List.cons_append]
      exact List.dedup_cons_of_not_mem hB
    | cons b A'' =>
      have hb : b = a := hA b (List.mem_cons_of_mem _ (List.mem_cons_self _ _))
      have hmem : a ∈ (b :: A'') ++ B := by
        rw [hb]
        simp
      rw [List.cons_append, List.dedup_cons_of_mem hmem]
      exact ih (fun y hy => hA y (List.mem_cons_of_mem _ hy)) (by simp)

/-- Reassembly: concatenating the per-key filters of a key-sorted list over
its distinct keys (in order) yields the list back.  This is what makes the
groupby-then-concat shape of the aggregator the identity on rows. -/
theorem flatMap_dedup_filter {α : Type} (key : α → Nat) (l : List α)
    (h : l.Pairwise (fun a b => key a ≤ key b)) :
    ((l.map key).dedup).flatMap (fun k => l.filter (fun x => key x == k))
      = l := by
  cases hl : l with
  | nil => simp
  | cons x t =>
    rw [← hl]
    obtain ⟨run, rest, heq, hne, hkeys, hrest⟩ :=
      sorted_key_split key x t (hl ▸ h)
    rw [hl, heq]
    have hk0run : ∀ a ∈ run.map key, a = key x := by
      intro a ha
      obtain ⟨y, hy, rfl⟩ := List.mem_map.mp ha
      exact hkeys y hy
    have hk0rest : key x ∉ rest.map key := by
      intro hmem
      obtain ⟨y, hy, hyk⟩ := List.mem_map.mp hmem
      have := hrest y hy
      omega
    have hrunne : run.map key ≠ [] := by
      cases run
      · exact absurd rfl hne
      · simp
    rw [List.map_append, dedup_append_of_all_eq hk0run hrunne hk0rest]
    rw [List.flatMap_cons]
    have hfilter0 : (run ++ rest).filter (fun y => key y == key x) = run := by
      rw [List.filter_append]
      rw [List.filter_eq_self.mpr (by
        intro y hy
        simp [hkeys y hy])]
      rw [List.filter_eq_nil.mpr (by
        intro y hy
        have := hrest y hy
        simp
        omega)]
      simp
    rw [hfilter0]
    have hcongr : ∀ k ∈ (rest.map key).dedup,
        (run ++ rest).filter (fun y => key y == k)
          = rest.filter (fun y => key y == k) := by
      intro k hk
      obtain ⟨y, hy, rfl⟩ := List.mem_map.mp (List.mem_dedup.mp hk)
      rw [List.filter_append]
      rw [List.filter_eq_nil.mpr (by
        intro z hz
        have h1 := hkeys z hz
        have h2 := hrest y hy
        simp
        omega)]
      simp
    rw [List.flatMap_congr hcongr]
    have hpairrest : rest.Pairwise (fun a b => key a ≤ key b) := by
      apply List.Pairwise.sublist _ (hl ▸ h)
      rw [heq]
      exact List.sublist_append_right _ _
    rw [flatMap_dedup_filter key rest hpairrest]
termination_by l.length
decreasing_by
  have hlen : l.length = run.length + rest.length := by
    rw [hl, heq, List.length_append]
  have hrunpos : 0 < run.length := List.length_pos.mpr hne
  omega

theorem mkDay_date (cps : List ClosedPeriod) (d : Date) :
    (mkDay cps d).date = d := rfl

theorem remainingDays_pairwise {today e : Date} {cps : List ClosedPeriod}
    (ht : today.Valid) (he : e.Valid) :
    (remainingDays today e cps).Pairwise
      (fun a b => monthKey a.date ≤ monthKey b.date) := by
  unfold remainingDays
  apply List.Pairwise.sublist (List.filter_sublist _)
  rw [List.pairwise_map]
  exact pairwise_monthKey_dateRange (firstOfMonth_valid ht) he

theorem remainingDays_map_date {today e : Date} {cps : List ClosedPeriod}
    (ht : today.Valid) (he : e.Valid) :
    (remainingDays today e cps).map Day.date = dateRange today e := by
  unfold remainingDays
  rw [List.filter_map, List.map_map]
  have hcomp1 : ((fun d : Day => dateLe today d.date) ∘ mkDay cps)
      = fun d => dateLe today d := rfl
  have hcomp2 : (Day.date ∘ mkDay cps) = id := rfl
  rw [hcomp1, hcomp2, List.map_id]
  exact filter_dateRange (firstOfMonth_valid ht) ht he (firstOfMonth_le ht)

theorem flatMap_monthGroups (l : List Day)
    (h : l.Pairwise (fun a b => monthKey a.date ≤ monthKey b.date)) :
    (monthKeys l).flatMap (fun k => monthGroup l k) = l := by
  unfold monthKeys monthGroup
  exact flatMap_dedup_filter (fun d => monthKey d.date) l h

/-- Every month key of the rows has a nonempty group. -/
theorem monthGroup_length_pos {l : List Day} {k : Nat}
    (h : k ∈ monthKeys l) : 0 < (monthGroup l k).length := by
  unfold monthKeys at h
  obtain ⟨d, hd, hk⟩ := List.mem_map.mp (List.mem_dedup.mp h)
  apply List.length_pos.mpr
  intro hnil
  have hmem : d ∈ monthGroup l k :=
    List.mem_filter.mpr ⟨hd, by simp [hk]⟩
  rw [hnil] at hmem
  cases hmem

/-- Every month group of the program input has at most 31 rows. -/
theorem monthGroup_length_le {today e : Date} {cps : List ClosedPeriod}
    (ht : today.Valid) (he : e.Valid) (k : Nat) :
    (monthGroup (remainingDays today e cps) k).length ≤ 31 := by
  unfold monthGroup remainingDays
  have h1 : ((((dateRange (firstOfMonth today) e).map (mkDay cps)).filter
      (fun d => dateLe today d.date)).filter
        (fun d => monthKey d.date == k)).length
      ≤ (((dateRange (firstOfMonth today) e).map (mkDay cps)).filter
        (fun d => monthKey d.date == k)).length :=
    ((List.filter_sublist _).filter _).length_le
  refine h1.trans ?_
  rw [List.filter_map]
  have hcomp : ((fun d : Day => monthKey d.date == k) ∘ mkDay cps)
      = fun d => monthKey d == k := rfl
  rw [hcomp, List.length_map]
  exact length_filter_monthKey_le (firstOfMonth_valid ht) he k

/-- Each row of the remaining table is its own date paired with the day
classifier's output for that date. -/
theorem remainingDays_isClosed {today e : Date} {cps : List ClosedPeriod}
    {d : Day} (h : d ∈ remainingDays today e cps) :
    d.isClosed = is_closed d.date cps := by
  unfold remainingDays at h
  have h1 := (List.mem_filter.mp h).1
  obtain ⟨x, _, rfl⟩ := List.mem_map.mp h1
  rfl

/-- Summing a function that vanishes off one index of a duplicate-free list. -/
theorem sum_map_single {li : List Nat} {i0 : Nat} (hnd : li.Nodup)
    (hmem : i0 ∈ li) (f : Nat → ℚ)
    (hz : ∀ j ∈ li, j ≠ i0 → f j = 0) :
    (li.map f).sum = f i0 := by
  induction li with
  | nil => cases hmem
  | cons a t ih =>
    obtain ⟨hna, hnt⟩ := List.nodup_cons.mp hnd
    rcases List.mem_cons.mp hmem with rfl | hmt
    · simp only [List.map_cons, List.sum_cons]
      have hzt : ∀ j ∈ t, f j = 0 := by
        intro j hj
        refine hz j (List.mem_cons_of_mem _ hj) ?_
        rintro rfl
        exact hna hj
      rw [List.sum_eq_zero]
      · ring
      · intro x hx
        obtain ⟨j, hj, rfl⟩ := List.mem_map.mp hx
        exact hzt j hj
    · have ha : a ≠ i0 := by
        rintro rfl
        exact hna hmt
      simp only [List.map_cons, List.sum_cons,
        hz a (List.mem_cons_self _ _) ha,
        ih hnt hmt (fun j hj hne => hz j (List.mem_cons_of_mem _ hj) hne)]
      ring

/-- When the monthly total is not already 1, it undershoots by at least one
base unit. -/
theorem totalPercentage_gap {g : List Day} (hglen : 0 < g.length)
    (hne : totalPercentage g ≠ 1) :
    1 / (g.length : ℚ) ≤ 1 - totalPercentage g := by
  have hNC := N_add_C g
  have hK := closedWithPreceding_le_C g
  have hDpos : (0 : ℚ) < (g.length : ℚ) := by exact_mod_cast hglen
  have hu : baseU g = 1 / (g.length : ℚ) := by
    unfold baseU
    rw [N_plus_C_eq hglen]
  have hSval : totalPercentage g
      = ((N g + closedWithPreceding g : ℕ) : ℚ) / (g.length : ℚ) := by
    rw [totalPercentage_formula, hu]
    push_cast
    ring
  have hlt : N g + closedWithPreceding g < g.length := by
    rcases Nat.lt_or_ge (N g + closedWithPreceding g) g.length with h | h
    · exact h
    · exfalso
      have hexact : N g + closedWithPreceding g = g.length := by omega
      apply hne
      rw [hSval, hexact]
      field_simp
  have hn1 : ((N g + closedWithPreceding g : ℕ) : ℚ) + 1 ≤ (g.length : ℚ) := by
    exact_mod_cast hlt
  rw [hSval, le_sub_iff_add_le, div_add_div_same, div_le_one hDpos]
  linarith

/-- The numpy.isclose guard rejects any monthly total other than 1 for a
calendar-size group: the undershoot of at least 1/31 dwarfs the tolerance. -/
theorem npIsClose_total_false {g : List Day} (hglen : 0 < g.length)
    (hlen : g.length ≤ 31) (hne : totalPercentage g ≠ 1) :
    npIsClose (totalPercentage g) 1 = false := by
  have hgap := totalPercentage_gap hglen hne
  have hDpos : (0 : ℚ) < (g.length : ℚ) := by exact_mod_cast hglen
  have hgapD : (1 : ℚ) / 31 ≤ 1 / (g.length : ℚ) := by
    apply one_div_le_one_div_of_le hDpos
    exact_mod_cast hlen
  rw [Bool.eq_false_iff]
  intro hcl'
  rw [npIsClose_iff] at hcl'
  rw [abs_of_nonpos (by linarith)] at hcl'
  have habs : |(1 : ℚ)| = 1 := by norm_num
  rw [habs] at hcl'
  have : (1 : ℚ) / 31 ≤ 1 / 100000000 + 1 / 100000 * 1 := by linarith
  norm_num at this

/-- Rows without positive weight are untouched by the rounding correction. -/
theorem addToFirstActive_getElem_of_nonpos {adj : ℚ} {l : List WeightedDay}
    {j : Nat} {x : WeightedDay} (hx : l[j]? = some x)
    (hnp : ¬0 < x.weight) :
    (addToFirstActive adj l)[j]? = some x := by
  induction l generalizing j with
  | nil => cases hx
  | cons w rest ih =>
    unfold addToFirstActive
    by_cases hp : 0 < w.weight
    · rw [if_pos hp]
      cases j with
      | zero =>
        rw [List.getElem?_cons_zero] at hx
        injection hx with hx
        subst hx
        exact absurd hp hnp
      | succ m =>
        rw [List.getElem?_cons_succ] at hx ⊢
        exact hx
    · rw [if_neg hp]
      cases j with
      | zero =>
        rwa [List.getElem?_cons_zero] at hx ⊢
      | succ m =>
        rw [List.getElem?_cons_succ] at hx ⊢
        exact ih hx

/-- C1: for every month group in the requested range that contains at least
one OPEN day, the sum of the output weights of that month's days equals 1.0
within a tolerance of 1e-9 (in the exact-rational model the sum is exactly
1, hence certainly within the tolerance). -/
theorem c1_month_sum_within_tolerance (today e : Date) (cps : List ClosedPeriod)
    (ht : today.Valid) (he : e.Valid) (k : Nat)
    (hk : k ∈ monthKeys (remainingDays today e cps))
    (hopen : 0 < N (monthGroup (remainingDays today e cps) k)) :
    |((allocMonth (monthGroup (remainingDays today e cps) k)).map
        WeightedDay.weight).sum - 1| ≤ 1 / 1000000000 := by
  rw [allocMonth_sum_eq_one hopen (monthGroup_length_le ht he k)]
  norm_num

theorem c1_witness :
    |((allocMonth (monthGroup
        (remainingDays ⟨2026, 1, 30⟩ ⟨2026, 1, 31⟩ []) 24313)).map
          WeightedDay.weight).sum - 1| ≤ 1 / 1000000000 :=
  c1_month_sum_within_tolerance ⟨2026, 1, 30⟩ ⟨2026, 1, 31⟩ []
    (by decide) (by decide) 24313 (by decide) (by decide)

/-- C5: the output of the allocation has exactly one row per date of the
requested range `[today, e]`, and its rows are the month groups' results
concatenated in ascending month order with each month's days ascending: its
date column is exactly the ascending date range. -/
theorem c5_output_shape (today e : Date) (cps : List ClosedPeriod)
    (ht : today.Valid) (he : e.Valid) :
    (allocate today e cps).length = (dateRange today e).length
      ∧ (allocate today e cps).map WeightedDay.date = dateRange today e := by
  have hmain : (allocate today e cps).map WeightedDay.date
      = dateRange today e := by
    unfold allocate
    rw [List.map_flatMap]
    rw [List.flatMap_congr (fun k _ =>
      allocMonth_map_date (monthGroup (remainingDays today e cps) k))]
    rw [← List.map_flatMap]
    rw [flatMap_monthGroups _ (remainingDays_pairwise ht he)]
    exact remainingDays_map_date ht he
  refine ⟨?_, hmain⟩
  rw [← hmain, List.length_map]

theorem c5_witness :
    (allocate ⟨2026, 1, 30⟩ ⟨2026, 1, 31⟩ []).length
        = (dateRange ⟨2026, 1, 30⟩ ⟨2026, 1, 31⟩).length
      ∧ (allocate ⟨2026, 1, 30⟩ ⟨2026, 1, 31⟩ []).map WeightedDay.date
        = dateRange ⟨2026, 1, 30⟩ ⟨2026, 1, 31⟩ :=
  c5_output_shape ⟨2026, 1, 30⟩ ⟨2026, 1, 31⟩ [] (by decide) (by decide)

/-- C6: every day classified CLOSED (its date falls inside at least one
closed period) has weight exactly 0 in the output: its row of the month
allocation is its date paired with weight 0, for every input range and
closed-period list. -/
theorem c6_closed_day_weight_zero (today e : Date) (cps : List ClosedPeriod)
    (k i : Nat) (d : Day)
    (hd : (monthGroup (remainingDays today e cps) k)[i]? = some d)
    (hc : is_closed d.date cps = true) :
    (allocMonth (monthGroup (remainingDays today e cps) k))[i]?
      = some ⟨d.date, 0⟩ := by
  have hilen : i < (monthGroup (remainingDays today e cps) k).length := by
    rcases Nat.lt_or_ge i (monthGroup (remainingDays today e cps) k).length
      with h | h
    · exact h
    · rw [List.getElem?_eq_none h] at hd
      cases hd
  have hdmem : d ∈ monthGroup (remainingDays today e cps) k := by
    obtain ⟨h', he'⟩ := List.getElem?_eq_some_iff.mp hd
    rw [← he']
    exact List.getElem_mem h'
  have hdrem : d ∈ remainingDays today e cps := by
    unfold monthGroup at hdmem
    exact (List.mem_filter.mp hdmem).1
  have hdc : d.isClosed = true := by
    rw [remainingDays_isClosed hdrem]
    exact hc
  have hclAt : closedAt (monthGroup (remainingDays today e cps) k) i = true := by
    unfold closedAt holdsAt
    rw [hd]
    exact hdc
  have hperc : percentage (monthGroup (remainingDays today e cps) k) i = 0 := by
    unfold percentage
    rw [if_pos hclAt]
  have hdate : dateAt (monthGroup (remainingDays today e cps) k) i = d.date := by
    unfold dateAt
    rw [hd]
    rfl
  have hpre : (monthPre (monthGroup (remainingDays today e cps) k))[i]?
      = some ⟨d.date, 0⟩ := by
    rw [monthPre_getElem hilen, hperc, hdate]
  unfold allocMonth
  split_ifs with hcl
  · exact hpre
  · exact addToFirstActive_getElem_of_nonpos hpre (by norm_num)

theorem c6_witness :
    (allocMonth (monthGroup
        (remainingDays ⟨2026, 1, 30⟩ ⟨2026, 1, 31⟩
          [⟨⟨2026, 1, 31⟩, ⟨2026, 1, 31⟩⟩]) 24313))[1]?
      = some ⟨⟨2026, 1, 31⟩, 0⟩ :=
  c6_closed_day_weight_zero ⟨2026, 1, 30⟩ ⟨2026, 1, 31⟩
    [⟨⟨2026, 1, 31⟩, ⟨2026, 1, 31⟩⟩] 24313 1 ⟨⟨2026, 1, 31⟩, true⟩
    (by decide) (by decide)

/-- C8: the allocation is a pure function of its inputs: two runs on the same
reference date, range end, and closed periods produce identical output. -/
theorem c8_deterministic (today1 e1 : Date) (cps1 : List ClosedPeriod)
    (today2 e2 : Date) (cps2 : List ClosedPeriod)
    (h1 : today1 = today2) (h2 : e1 = e2) (h3 : cps1 = cps2) :
    allocate today1 e1 cps1 = allocate today2 e2 cps2 := by
  subst h1
  subst h2
  subst h3
  rfl

theorem c8_witness :
    allocate ⟨2026, 1, 30⟩ ⟨2026, 1, 31⟩ []
      = allocate ⟨2026, 1, 30⟩ ⟨2026, 1, 31⟩ [] :=
  c8_deterministic ⟨2026, 1, 30⟩ ⟨2026, 1, 31⟩ [] ⟨2026, 1, 30⟩ ⟨2026, 1, 31⟩ []
    rfl rfl rfl

/-- C9: when the range end precedes the range start (the first day of the
current month, where the generated table would begin), the guard of line 334
fails and no output at all is produced. -/
theorem c9_invalid_range (today e : Date) (cps : List ClosedPeriod)
    (h : dateLt e (firstOfMonth today) = true) :
    runPcal today e cps = none := by
  unfold runPcal
  have hle : dateLe (firstOfMonth today) e = false := by
    rw [Bool.eq_false_iff]
    intro hle'
    rw [dateLe_iff] at hle'
    rw [dateLt_iff] at h
    simp only [firstOfMonth] at hle' h
    omega
  rw [hle]
  simp

theorem c9_witness :
    runPcal ⟨2026, 1, 30⟩ ⟨2025, 12, 31⟩ [] = none :=
  c9_invalid_range ⟨2026, 1, 30⟩ ⟨2025, 12, 31⟩ [] (by decide)

/-- C10: every month group the per-month loop visits is nonempty, so
`N + C ≥ 1`, the divisor `N_plus_C` equals `N + C` (the base-unit division
`1 / N_plus_C` never divides by zero), and the degenerate guard branch that
would set the divisor to 1 is never taken. -/
theorem c10_group_nonempty (today e : Date) (cps : List ClosedPeriod)
    (k : Nat) (hk : k ∈ monthKeys (remainingDays today e cps)) :
    1 ≤ N (monthGroup (remainingDays today e cps) k)
        + C (monthGroup (remainingDays today e cps) k)
      ∧ N_plus_C (monthGroup (remainingDays today e cps) k)
        = N (monthGroup (remainingDays today e cps) k)
          + C (monthGroup (remainingDays today e cps) k) := by
  have hpos := monthGroup_length_pos hk
  have hNC := N_add_C (monthGroup (remainingDays today e cps) k)
  refine ⟨by omega, ?_⟩
  unfold N_plus_C
  rw [if_pos (by omega)]

theorem c10_witness :
    1 ≤ N (monthGroup (remainingDays ⟨2026, 1, 30⟩ ⟨2026, 1, 31⟩ []) 24313)
        + C (monthGroup (remainingDays ⟨2026, 1, 30⟩ ⟨2026, 1, 31⟩ []) 24313)
      ∧ N_plus_C (monthGroup (remainingDays ⟨2026, 1, 30⟩ ⟨2026, 1, 31⟩ []) 24313)
        = N (monthGroup (remainingDays ⟨2026, 1, 30⟩ ⟨2026, 1, 31⟩ []) 24313)
          + C (monthGroup (remainingDays ⟨2026, 1, 30⟩ ⟨2026, 1, 31⟩ []) 24313) :=
  c10_group_nonempty ⟨2026, 1, 30⟩ ⟨2026, 1, 31⟩ [] 24313 (by decide)

/-- Whether row `i` is the nearest preceding OPEN day of row `j`, worded as
the spec does: an open row strictly before `j` with no open row in between
(scanning backward in date order within the group). -/
def isNearestPrecedingOpen (g : List Day) (j i : Nat) : Prop :=
  i < j ∧ openAt g i = true ∧ ∀ m, m < j → i < m → openAt g m = false

instance (g : List Day) (j i : Nat) :
    Decidable (isNearestPrecedingOpen g j i) := by
  unfold isNearestPrecedingOpen
  infer_instance

/-- The number of CLOSED days of the group whose nearest preceding OPEN day
is row `i`, counted from the spec-side description. -/
def nearestPrecedingCount (g : List Day) (i : Nat) : Nat :=
  ((List.range g.length).filter
    (fun j => closedAt g j && decide (isNearestPrecedingOpen g j i))).length

/-- The backward scan of the code computes exactly the spec's nearest
preceding open day. -/
theorem find_preceding_iff_nearest {g : List Day} {j i : Nat} :
    find_preceding_active_index g j = some i
      ↔ isNearestPrecedingOpen g j i := by
  rw [find_preceding_eq_some_iff]
  unfold isNearestPrecedingOpen
  constructor
  · rintro ⟨h1, h2, h3⟩
    exact ⟨h1, h2, fun m hm1 hm2 => h3 m hm2 hm1⟩
  · rintro ⟨h1, h2, h3⟩
    exact ⟨h1, h2, fun m hm1 hm2 => h3 m hm2 hm1⟩

theorem nearestPrecedingCount_eq (g : List Day) (i : Nat) :
    nearestPrecedingCount g i = ClosedDaysCount g i := by
  unfold nearestPrecedingCount ClosedDaysCount
  congr 1
  apply List.filter_congr
  intro j _
  congr 1
  by_cases hn : isNearestPrecedingOpen g j i
  · rw [decide_eq_true hn]
    have := find_preceding_iff_nearest.mpr hn
    simp [this]
  · rw [decide_eq_false hn]
    have hne : find_preceding_active_index g j ≠ some i :=
      fun h => hn (find_preceding_iff_nearest.mp h)
    simp [hne]

/-- C2: with `u = 1/D` for `D` the number of in-range days of the month
group, each OPEN day's final weight before the rounding correction equals
`u + u * (number of CLOSED days of the group whose nearest preceding OPEN
day, scanning backward in date order, is that day)`. -/
theorem c2_open_day_weight_formula (today e : Date) (cps : List ClosedPeriod)
    (ht : today.Valid) (he : e.Valid) (k : Nat)
    (hk : k ∈ monthKeys (remainingDays today e cps)) (i : Nat)
    (hopen : openAt (monthGroup (remainingDays today e cps) k) i = true) :
    FinalPercentage (monthGroup (remainingDays today e cps) k) i
      = 1 / ((monthGroup (remainingDays today e cps) k).length : ℚ)
        + (nearestPrecedingCount (monthGroup (remainingDays today e cps) k) i : ℚ)
          * (1 / ((monthGroup (remainingDays today e cps) k).length : ℚ)) := by
  have hlen : i < (monthGroup (remainingDays today e cps) k).length :=
    lt_length_of_holdsAt hopen
  have hglen : 0 < (monthGroup (remainingDays today e cps) k).length := by
    omega
  have hc : closedAt (monthGroup (remainingDays today e cps) k) i = false :=
    (closedAt_eq_false_iff hlen).mpr hopen
  have hu : baseU (monthGroup (remainingDays today e cps) k)
      = 1 / ((monthGroup (remainingDays today e cps) k).length : ℚ) := by
    unfold baseU
    rw [N_plus_C_eq hglen]
  unfold FinalPercentage BasePercentage ExtraPercentage
  rw [hc, nearestPrecedingCount_eq, hu]
  simp

theorem c2_witness :
    FinalPercentage (monthGroup
        (remainingDays ⟨2026, 1, 30⟩ ⟨2026, 1, 31⟩ []) 24313) 0
      = 1 / ((monthGroup
          (remainingDays ⟨2026, 1, 30⟩ ⟨2026, 1, 31⟩ []) 24313).length : ℚ)
        + (nearestPrecedingCount (monthGroup
            (remainingDays ⟨2026, 1, 30⟩ ⟨2026, 1, 31⟩ []) 24313) 0 : ℚ)
          * (1 / ((monthGroup
              (remainingDays ⟨2026, 1, 30⟩ ⟨2026, 1, 31⟩ []) 24313).length : ℚ)) :=
  c2_open_day_weight_formula ⟨2026, 1, 30⟩ ⟨2026, 1, 31⟩ []
    (by decide) (by decide) 24313 (by decide) 0 (by decide)

/-- C3 counterexample: take the month group
`[closed 2026-01-29, open 2026-01-30, open 2026-01-31]` (the closed run
starts at the beginning of the group, so the closed day has no preceding
open day).  The output weight of the first open day is `2/3`, not the
untouched base unit `1/3`: the dropped day's share does get reassigned
forward onto a later day (via the rounding correction), so the claim that it
is NOT reassigned to any later day is false, even though the sum over the
open days is 1. -/
theorem c3_counterexample :
    (allocMonth [⟨⟨2026, 1, 29⟩, true⟩, ⟨⟨2026, 1, 30⟩, false⟩,
        ⟨⟨2026, 1, 31⟩, false⟩])[1]?
      = some ⟨⟨2026, 1, 30⟩, 2 / 3⟩
    ∧ (2 : ℚ) / 3 ≠ 1 / 3 := by
  have hN : N [⟨⟨2026, 1, 29⟩, true⟩, ⟨⟨2026, 1, 30⟩, false⟩,
      ⟨⟨2026, 1, 31⟩, false⟩] = 2 := by decide
  have hK : closedWithPreceding [⟨⟨2026, 1, 29⟩, true⟩,
      ⟨⟨2026, 1, 30⟩, false⟩, ⟨⟨2026, 1, 31⟩, false⟩] = 0 := by decide
  have hu : baseU [⟨⟨2026, 1, 29⟩, true⟩, ⟨⟨2026, 1, 30⟩, false⟩,
      ⟨⟨2026, 1, 31⟩, false⟩] = 1 / 3 := by
    unfold baseU
    rw [N_plus_C_eq (by decide)]
    norm_num
  have hS : totalPercentage [⟨⟨2026, 1, 29⟩, true⟩, ⟨⟨2026, 1, 30⟩, false⟩,
      ⟨⟨2026, 1, 31⟩, false⟩] = 2 / 3 := by
    rw [totalPercentage_formula, hN, hK, hu]
    norm_num
  have hcl : npIsClose (totalPercentage [⟨⟨2026, 1, 29⟩, true⟩,
      ⟨⟨2026, 1, 30⟩, false⟩, ⟨⟨2026, 1, 31⟩, false⟩]) 1 = false := by
    apply npIsClose_total_false (by decide) (by decide)
    rw [hS]
    norm_num
  have hp0 : percentage [⟨⟨2026, 1, 29⟩, true⟩, ⟨⟨2026, 1, 30⟩, false⟩,
      ⟨⟨2026, 1, 31⟩, false⟩] 0 = 0 := by
    unfold percentage
    rw [if_pos (by decide)]
  have hp1 : percentage [⟨⟨2026, 1, 29⟩, true⟩, ⟨⟨2026, 1, 30⟩, false⟩,
      ⟨⟨2026, 1, 31⟩, false⟩] 1 = 1 / 3 := by
    have hcd : ClosedDaysCount [⟨⟨2026, 1, 29⟩, true⟩,
        ⟨⟨2026, 1, 30⟩, false⟩, ⟨⟨2026, 1, 31⟩, false⟩] 1 = 0 := by decide
    unfold percentage FinalPercentage BasePercentage ExtraPercentage
    rw [if_neg (by decide), if_neg (by decide), hcd, hu]
    norm_num
  have hpre0 : (monthPre [⟨⟨2026, 1, 29⟩, true⟩, ⟨⟨2026, 1, 30⟩, false⟩,
      ⟨⟨2026, 1, 31⟩, false⟩])[0]? = some ⟨⟨2026, 1, 29⟩, 0⟩ := by
    rw [monthPre_getElem (by decide), hp0]
    rw [show dateAt [⟨⟨2026, 1, 29⟩, true⟩, ⟨⟨2026, 1, 30⟩, false⟩,
      ⟨⟨2026, 1, 31⟩, false⟩] 0 = ⟨2026, 1, 29⟩ from by decide]
  have hpre1 : (monthPre [⟨⟨2026, 1, 29⟩, true⟩, ⟨⟨2026, 1, 30⟩, false⟩,
      ⟨⟨2026, 1, 31⟩, false⟩])[1]? = some ⟨⟨2026, 1, 30⟩, 1 / 3⟩ := by
    rw [monthPre_getElem (by decide), hp1]
    rw [show dateAt [⟨⟨2026, 1, 29⟩, true⟩, ⟨⟨2026, 1, 30⟩, false⟩,
      ⟨⟨2026, 1, 31⟩, false⟩] 1 = ⟨2026, 1, 30⟩ from by decide]
  constructor
  · have h0 : ∀ j, j < 1 → ∀ x : WeightedDay,
        (monthPre [⟨⟨2026, 1, 29⟩, true⟩, ⟨⟨2026, 1, 30⟩, false⟩,
          ⟨⟨2026, 1, 31⟩, false⟩])[j]? = some x → ¬0 < x.weight := by
      intro j hj x hx
      have hj0 : j = 0 := by omega
      subst hj0
      rw [hpre0] at hx
      injection hx with hx
      rw [← hx]
      norm_num
    have h1 : ∃ w, (monthPre [⟨⟨2026, 1, 29⟩, true⟩, ⟨⟨2026, 1, 30⟩, false⟩,
        ⟨⟨2026, 1, 31⟩, false⟩])[1]? = some w ∧ 0 < w.weight :=
      ⟨⟨⟨2026, 1, 30⟩, 1 / 3⟩, hpre1, by norm_num⟩
    unfold allocMonth
    rw [hcl]
    simp only [Bool.false_eq_true, if_false]
    rw [addToFirstActive_getElem h0 h1 1, if_pos rfl, hpre1, hS]
    show some (⟨⟨2026, 1, 30⟩, 1 / 3 + (1 - 2 / 3)⟩ : WeightedDay)
      = some ⟨⟨2026, 1, 30⟩, 2 / 3⟩
    norm_num
  · norm_num

/-- C3 (amended): when the first day of a month group is CLOSED and all
remaining days are OPEN, the leading closed day has no preceding open day
inside the group, so the roll-forward step of Steps 9-15 drops it (its
backward scan returns nothing and every ExtraPercentage is 0); the rounding
correction of Step 19 then restores the missing base unit onto the first
open day, so the month's output weights still sum to exactly 1. -/
theorem c3_amended (d0 : Day) (t : List Day) (hd0 : d0.isClosed = true)
    (ht : ∀ x ∈ t, x.isClosed = false) (hne : t ≠ [])
    (hlen : (d0 :: t).length ≤ 31) :
    find_preceding_active_index (d0 :: t) 0 = none
      ∧ (∀ i, ExtraPercentage (d0 :: t) i = 0)
      ∧ ((allocMonth (d0 :: t)).map WeightedDay.weight).sum = 1 := by
  have hcount : ∀ i, ClosedDaysCount (d0 :: t) i = 0 := by
    intro i
    unfold ClosedDaysCount
    rw [List.length_eq_zero, List.filter_eq_nil]
    intro j hj
    rw [Bool.and_eq_true]
    rintro ⟨hcj, hbeq⟩
    have hj0 : j = 0 := by
      cases j with
      | zero => rfl
      | succ m =>
        exfalso
        have hcm : closedAt t m = true := by
          have hstep : closedAt (d0 :: t) (m + 1) = closedAt t m :=
            holdsAt_cons_succ _ _ _ _
          rw [← hstep]
          exact hcj
        obtain ⟨d, hdm, hdc⟩ := holdsAt_iff.mp hcm
        have hdmem : d ∈ t := by
          obtain ⟨h', he'⟩ := List.getElem?_eq_some_iff.mp hdm
          rw [← he']
          exact List.getElem_mem h'
        rw [ht d hdmem] at hdc
        cases hdc
    subst hj0
    rw [find_preceding_zero] at hbeq
    simp at hbeq
  have hNt : N (d0 :: t) = t.length := by
    unfold N
    rw [List.filter_cons, hd0]
    simp only [Bool.not_true, Bool.false_eq_true, if_false]
    rw [List.filter_eq_self.mpr (by
      intro x hx
      rw [ht x hx]
      rfl)]
  have hNpos : 0 < N (d0 :: t) := by
    rw [hNt]
    exact List.length_pos.mpr hne
  refine ⟨find_preceding_zero _, ?_, allocMonth_sum_eq_one hNpos hlen⟩
  intro i
  unfold ExtraPercentage
  rw [hcount i]
  simp

theorem c3_witness :
    find_preceding_active_index [⟨⟨2026, 1, 29⟩, true⟩,
        ⟨⟨2026, 1, 30⟩, false⟩, ⟨⟨2026, 1, 31⟩, false⟩] 0 = none
      ∧ (∀ i, ExtraPercentage [⟨⟨2026, 1, 29⟩, true⟩,
          ⟨⟨2026, 1, 30⟩, false⟩, ⟨⟨2026, 1, 31⟩, false⟩] i = 0)
      ∧ ((allocMonth [⟨⟨2026, 1, 29⟩, true⟩, ⟨⟨2026, 1, 30⟩, false⟩,
          ⟨⟨2026, 1, 31⟩, false⟩]).map WeightedDay.weight).sum = 1 :=
  c3_amended ⟨⟨2026, 1, 29⟩, true⟩
    [⟨⟨2026, 1, 30⟩, false⟩, ⟨⟨2026, 1, 31⟩, false⟩]
    (by decide) (by decide) (by decide) (by decide)

/-- C4: for any month group, (a) when the computed sum deviates from 1 by
more than 1e-9 and the month has an OPEN day, the whole adjustment
`1 - sum` is added to the weight of the first OPEN day in date order and
nothing else changes; (b) when the month has no OPEN day, no adjustment is
applied and the sum of the output stays 0. -/
theorem c4_adjustment_first_open (today e : Date) (cps : List ClosedPeriod)
    (ht : today.Valid) (he : e.Valid) (k : Nat)
    (hk : k ∈ monthKeys (remainingDays today e cps)) :
    ((1 : ℚ) / 1000000000
        < |totalPercentage (monthGroup (remainingDays today e cps) k) - 1| →
      0 < N (monthGroup (remainingDays today e cps) k) →
      ∃ i0, openAt (monthGroup (remainingDays today e cps) k) i0 = true
        ∧ (∀ j, j < i0 →
            closedAt (monthGroup (remainingDays today e cps) k) j = true)
        ∧ ∀ j, (allocMonth (monthGroup (remainingDays today e cps) k))[j]?
            = if j = i0 then
                ((monthPre (monthGroup (remainingDays today e cps) k))[i0]?).map
                  (fun w => ⟨w.date, w.weight + (1 - totalPercentage
                    (monthGroup (remainingDays today e cps) k))⟩)
              else (monthPre (monthGroup (remainingDays today e cps) k))[j]?)
    ∧ (N (monthGroup (remainingDays today e cps) k) = 0 →
        allocMonth (monthGroup (remainingDays today e cps) k)
            = monthPre (monthGroup (remainingDays today e cps) k)
          ∧ ((allocMonth (monthGroup (remainingDays today e cps) k)).map
              WeightedDay.weight).sum = 0) := by
  set g := monthGroup (remainingDays today e cps) k with hgdef
  constructor
  · intro hdev hopen
    have hglen := monthGroup_length_pos hk
    rw [← hgdef] at hglen
    have hlen31 := @monthGroup_length_le today e cps ht he k
    rw [← hgdef] at hlen31
    have hne : totalPercentage g ≠ 1 := by
      intro h1
      rw [h1] at hdev
      norm_num at hdev
    have hcl := npIsClose_total_false hglen hlen31 hne
    have hex : ∃ n, openAt g n = true := by
      have hpos : 0 < ((List.range g.length).filter
          (fun j => openAt g j)).length := by
        rw [← N_eq_countP]
        exact hopen
      obtain ⟨n, hn⟩ := List.exists_mem_of_length_pos hpos
      exact ⟨n, (List.mem_filter.mp hn).2⟩
    have hi0len : Nat.find hex < g.length :=
      lt_length_of_holdsAt (Nat.find_spec hex)
    refine ⟨Nat.find hex, Nat.find_spec hex, ?_, ?_⟩
    · intro j hj
      have hno : ¬openAt g j = true := Nat.find_min hex hj
      have hjlen : j < g.length := by omega
      cases hcj : closedAt g j
      · exact absurd ((closedAt_eq_false_iff hjlen).mp hcj) hno
      · rfl
    · intro j
      unfold allocMonth
      rw [hcl]
      simp only [Bool.false_eq_true, if_false]
      apply addToFirstActive_getElem
      · intro j' hj' x hx
        have hj'len : j' < g.length := by omega
        rw [monthPre_getElem hj'len] at hx
        injection hx with hx
        rw [← hx]
        have hno : ¬openAt g j' = true := Nat.find_min hex hj'
        have hcj : closedAt g j' = true := by
          cases hcj : closedAt g j'
          · exact absurd ((closedAt_eq_false_iff hj'len).mp hcj) hno
          · rfl
        show ¬(0 : ℚ) < percentage g j'
        unfold percentage
        rw [if_pos hcj]
        norm_num
      · exact ⟨⟨dateAt g (Nat.find hex), percentage g (Nat.find hex)⟩,
          monthPre_getElem hi0len,
          percentage_pos_of_open (Nat.find_spec hex)⟩
  · intro hN0
    have hallzero : ∀ w ∈ monthPre g, w.weight = 0 := by
      intro w hw
      unfold monthPre at hw
      obtain ⟨i, hi, rfl⟩ := List.mem_map.mp hw
      have hilen := List.mem_range.mp hi
      show percentage g i = 0
      have hcj : closedAt g i = true := by
        cases hcj : closedAt g i
        · exfalso
          have ho := (closedAt_eq_false_iff hilen).mp hcj
          have hpos : 0 < N g := by
            rw [N_eq_countP]
            apply List.length_pos.mpr
            intro hnil
            have hmem : i ∈ (List.range g.length).filter
                (fun j => openAt g j) :=
              List.mem_filter.mpr ⟨List.mem_range.mpr hilen, ho⟩
            rw [hnil] at hmem
            cases hmem
          omega
        · rfl
      unfold percentage
      rw [if_pos hcj]
    have heq : allocMonth g = monthPre g := by
      unfold allocMonth
      split_ifs with hcl
      · rfl
      · apply addToFirstActive_no_pos
        intro w hw
        rw [hallzero w hw]
        norm_num
    refine ⟨heq, ?_⟩
    rw [heq]
    apply List.sum_eq_zero
    intro x hx
    obtain ⟨w, hw, rfl⟩ := List.mem_map.mp hx
    exact hallzero w hw

theorem c4_witness :
    ((1 : ℚ) / 1000000000
        < |totalPercentage (monthGroup (remainingDays ⟨2026, 1, 29⟩
            ⟨2026, 1, 31⟩ [⟨⟨2026, 1, 29⟩, ⟨2026, 1, 29⟩⟩]) 24313) - 1| →
      0 < N (monthGroup (remainingDays ⟨2026, 1, 29⟩ ⟨2026, 1, 31⟩
          [⟨⟨2026, 1, 29⟩, ⟨2026, 1, 29⟩⟩]) 24313) →
      ∃ i0, openAt (monthGroup (remainingDays ⟨2026, 1, 29⟩ ⟨2026, 1, 31⟩
            [⟨⟨2026, 1, 29⟩, ⟨2026, 1, 29⟩⟩]) 24313) i0 = true
        ∧ (∀ j, j < i0 →
            closedAt (monthGroup (remainingDays ⟨2026, 1, 29⟩ ⟨2026, 1, 31⟩
              [⟨⟨2026, 1, 29⟩, ⟨2026, 1, 29⟩⟩]) 24313) j = true)
        ∧ ∀ j, (allocMonth (monthGroup (remainingDays ⟨2026, 1, 29⟩
              ⟨2026, 1, 31⟩ [⟨⟨2026, 1, 29⟩, ⟨2026, 1, 29⟩⟩]) 24313))[j]?
            = if j = i0 then
                ((monthPre (monthGroup (remainingDays ⟨2026, 1, 29⟩
                  ⟨2026, 1, 31⟩ [⟨⟨2026, 1, 29⟩, ⟨2026, 1, 29⟩⟩]) 24313))[i0]?).map
                  (fun w => ⟨w.date, w.weight + (1 - totalPercentage
                    (monthGroup (remainingDays ⟨2026, 1, 29⟩ ⟨2026, 1, 31⟩
                      [⟨⟨2026, 1, 29⟩, ⟨2026, 1, 29⟩⟩]) 24313))⟩)
              else (monthPre (monthGroup (remainingDays ⟨2026, 1, 29⟩
                ⟨2026, 1, 31⟩ [⟨⟨2026, 1, 29⟩, ⟨2026, 1, 29⟩⟩]) 24313))[j]?)
    ∧ (N (monthGroup (remainingDays ⟨2026, 1, 29⟩ ⟨2026, 1, 31⟩
          [⟨⟨2026, 1, 29⟩, ⟨2026, 1, 29⟩⟩]) 24313) = 0 →
        allocMonth (monthGroup (remainingDays ⟨2026, 1, 29⟩ ⟨2026, 1, 31⟩
            [⟨⟨2026, 1, 29⟩, ⟨2026, 1, 29⟩⟩]) 24313)
            = monthPre (monthGroup (remainingDays ⟨2026, 1, 29⟩ ⟨2026, 1, 31⟩
              [⟨⟨2026, 1, 29⟩, ⟨2026, 1, 29⟩⟩]) 24313)
          ∧ ((allocMonth (monthGroup (remainingDays ⟨2026, 1, 29⟩
              ⟨2026, 1, 31⟩ [⟨⟨2026, 1, 29⟩, ⟨2026, 1, 29⟩⟩]) 24313)).map
              WeightedDay.weight).sum = 0) :=
  c4_adjustment_first_open ⟨2026, 1, 29⟩ ⟨2026, 1, 31⟩
    [⟨⟨2026, 1, 29⟩, ⟨2026, 1, 29⟩⟩] (by decide) (by decide) 24313 (by decide)

/-- C7: a month group with exactly one OPEN day and every other day CLOSED
gives the single open day weight exactly 1 and every other day weight 0. -/
theorem c7_single_open_day (today e : Date) (cps : List ClosedPeriod)
    (ht : today.Valid) (he : e.Valid) (k : Nat)
    (hone : N (monthGroup (remainingDays today e cps) k) = 1) :
    ∃ i0, openAt (monthGroup (remainingDays today e cps) k) i0 = true
      ∧ (allocMonth (monthGroup (remainingDays today e cps) k))[i0]?
          = some ⟨dateAt (monthGroup (remainingDays today e cps) k) i0, 1⟩
      ∧ ∀ j, j < (monthGroup (remainingDays today e cps) k).length → j ≠ i0 →
          (allocMonth (monthGroup (remainingDays today e cps) k))[j]?
            = some ⟨dateAt (monthGroup (remainingDays today e cps) k) j, 0⟩ := by
  set g := monthGroup (remainingDays today e cps) k with hgdef
  obtain ⟨i0, hi0⟩ : ∃ i0, (List.range g.length).filter
      (fun j => openAt g j) = [i0] := by
    apply List.length_eq_one.mp
    rw [← N_eq_countP]
    exact hone
  have hi0mem : i0 ∈ (List.range g.length).filter (fun j => openAt g j) := by
    rw [hi0]
    exact List.mem_cons_self _ _
  have hopen0 : openAt g i0 = true := (List.mem_filter.mp hi0mem).2
  have hi0len : i0 < g.length :=
    List.mem_range.mp (List.mem_filter.mp hi0mem).1
  have hopen_iff : ∀ j, openAt g j = true ↔ j = i0 := by
    intro j
    constructor
    · intro ho
      have hjlen := lt_length_of_holdsAt ho
      have hmem : j ∈ (List.range g.length).filter (fun j => openAt g j) :=
        List.mem_filter.mpr ⟨List.mem_range.mpr hjlen, ho⟩
      rw [hi0] at hmem
      simpa using hmem
    · rintro rfl
      exact hopen0
  have hperc0 : ∀ j, j < g.length → j ≠ i0 → percentage g j = 0 := by
    intro j hj hne
    have hcj : closedAt g j = true := by
      cases hcj : closedAt g j
      · exact absurd ((hopen_iff j).mp ((closedAt_eq_false_iff hj).mp hcj)) hne
      · rfl
    unfold percentage
    rw [if_pos hcj]
  have hglen : 0 < g.length := by omega
  have hS : totalPercentage g = percentage g i0 := by
    unfold totalPercentage monthPre
    rw [List.map_map]
    rw [show (WeightedDay.weight ∘ fun i =>
      (⟨dateAt g i, percentage g i⟩ : WeightedDay))
        = fun i => percentage g i from rfl]
    apply sum_map_single (List.nodup_range _) (List.mem_range.mpr hi0len)
    intro j hj hne
    exact hperc0 j (List.mem_range.mp hj) hne
  have hkey : (allocMonth g)[i0]? = some ⟨dateAt g i0, 1⟩
      ∧ ∀ j, j < g.length → j ≠ i0 →
          (allocMonth g)[j]? = some ⟨dateAt g j, 0⟩ := by
    by_cases hS1 : totalPercentage g = 1
    · have hcl : npIsClose (totalPercentage g) 1 = true := by
        rw [npIsClose_iff, hS1]
        norm_num
      have hres : allocMonth g = monthPre g := by
        unfold allocMonth
        rw [if_pos hcl]
      constructor
      · rw [hres, monthPre_getElem hi0len]
        rw [show percentage g i0 = 1 from by rw [← hS]; exact hS1]
      · intro j hj hne
        rw [hres, monthPre_getElem hj, hperc0 j hj hne]
    · have hlen31 := @monthGroup_length_le today e cps ht he k
      rw [← hgdef] at hlen31
      have hcl := npIsClose_total_false hglen hlen31 hS1
      have h0 : ∀ j, j < i0 → ∀ x : WeightedDay,
          (monthPre g)[j]? = some x → ¬0 < x.weight := by
        intro j hj x hx
        have hjlen : j < g.length := by omega
        rw [monthPre_getElem hjlen] at hx
        injection hx with hx
        rw [← hx]
        show ¬(0 : ℚ) < percentage g j
        rw [hperc0 j hjlen (by omega)]
        norm_num
      have h1 : ∃ w, (monthPre g)[i0]? = some w ∧ 0 < w.weight :=
        ⟨⟨dateAt g i0, percentage g i0⟩, monthPre_getElem hi0len,
          percentage_pos_of_open hopen0⟩
      have hres : ∀ j, (allocMonth g)[j]?
          = if j = i0 then
              ((monthPre g)[i0]?).map
                (fun w => ⟨w.date, w.weight + (1 - totalPercentage g)⟩)
            else (monthPre g)[j]? := by
        intro j
        unfold allocMonth
        rw [hcl]
        simp only [Bool.false_eq_true, if_false]
        exact addToFirstActive_getElem h0 h1 j
      constructor
      · rw [hres i0, if_pos rfl, monthPre_getElem hi0len]
        show some (⟨dateAt g i0, percentage g i0
            + (1 - totalPercentage g)⟩ : WeightedDay)
          = some ⟨dateAt g i0, 1⟩
        rw [hS]
        norm_num
      · intro j hj hne
        rw [hres j, if_neg hne, monthPre_getElem hj, hperc0 j hj hne]
  exact ⟨i0, hopen0, hkey.1, hkey.2⟩

theorem c7_witness :
    ∃ i0, openAt (monthGroup (remainingDays ⟨2026, 1, 30⟩ ⟨2026, 1, 31⟩
        [⟨⟨2026, 1, 31⟩, ⟨2026, 1, 31⟩⟩]) 24313) i0 = true
      ∧ (allocMonth (monthGroup (remainingDays ⟨2026, 1, 30⟩ ⟨2026, 1, 31⟩
          [⟨⟨2026, 1, 31⟩, ⟨2026, 1, 31⟩⟩]) 24313))[i0]?
          = some ⟨dateAt (monthGroup (remainingDays ⟨2026, 1, 30⟩
              ⟨2026, 1, 31⟩ [⟨⟨2026, 1, 31⟩, ⟨2026, 1, 31⟩⟩]) 24313) i0, 1⟩
      ∧ ∀ j, j < (monthGroup (remainingDays ⟨2026, 1, 30⟩ ⟨2026, 1, 31⟩
            [⟨⟨2026, 1, 31⟩, ⟨2026, 1, 31⟩⟩]) 24313).length → j ≠ i0 →
          (allocMonth (monthGroup (remainingDays ⟨2026, 1, 30⟩ ⟨2026, 1, 31⟩
              [⟨⟨2026, 1, 31⟩, ⟨2026, 1, 31⟩⟩]) 24313))[j]?
            = some ⟨dateAt (monthGroup (remainingDays ⟨2026, 1, 30⟩
                ⟨2026, 1, 31⟩ [⟨⟨2026, 1, 31⟩, ⟨2026, 1, 31⟩⟩]) 24313) j, 0⟩ :=
  c7_single_open_day ⟨2026, 1, 30⟩ ⟨2026, 1, 31⟩
    [⟨⟨2026, 1, 31⟩, ⟨2026, 1, 31⟩⟩] (by decide) (by decide) 24313 (by decide)

end Pcal
